import Mathlib

/-!
Verification of the abspath library (a Go wrapper type for absolute
filesystem paths) against its natural-language specification.

The host path library (Go's path/filepath on a Unix host, where the
path separator is '/' and volume names are empty) is embedded in the
namespace Filepath.  Strings are modelled through their character
lists.  The abspath package itself is embedded at top level: the
AbsPath wrapper, its constructors and its derivation methods.  Host
effects (user.Current, os.Getwd, filepath.EvalSymlinks) are passed
explicitly through a Host record, as the spec recommends for
testability.
-/

/-- The path separator of the modelled (Unix) host. -/
def Filepath.Separator : Char := '/'

/-- os.IsPathSeparator on the Unix host: only '/' is a separator. -/
def Filepath.isPathSeparator (c : Char) : Bool := c = '/'

/-- filepath.IsAbs on the Unix host: strings.HasPrefix(path, "/"),
i.e. the first character is the separator. -/
def Filepath.isAbs (path : String) : Bool :=
  match path.data with
  | [] => false
  | c :: _ => Filepath.isPathSeparator c

/-- True when the scan position is at an element boundary: end of
input or a separator follows (the r+1 == n || IsPathSeparator(path[r+1])
checks of filepath.Clean). -/
def Filepath.atBoundary : List Char → Bool
  | [] => true
  | c :: _ => Filepath.isPathSeparator c

/-- The condition of Clean's ".." case: the current char and the next
are dots and then an element boundary follows. -/
def Filepath.isDotDot (c : Char) (rest : List Char) : Bool :=
  c = '.' && match rest with
             | c2 :: rest2 => c2 = '.' && Filepath.atBoundary rest2
             | [] => false

/-- The inner copy loop of filepath.Clean's default case: append
characters to the output buffer until a separator (or the end) is
reached.  The buffer is kept in reverse order. -/
def Filepath.copyElem (out : List Char) : List Char → List Char × List Char
  | [] => (out, [])
  | c :: rest =>
    if Filepath.isPathSeparator c then (out, c :: rest)
    else Filepath.copyElem (c :: out) rest

theorem Filepath.copyElem_snd_length (out : List Char) (l : List Char) :
    (Filepath.copyElem out l).2.length ≤ l.length := by
  induction l generalizing out with
  | nil => simp [Filepath.copyElem]
  | cons c rest ih =>
    simp only [Filepath.copyElem]
    split
    · simp
    · exact Nat.le_trans (ih (c :: out)) (Nat.le_succ _)

/-- The backtracking of filepath.Clean's ".." case: out.w-- and then
decrement while out.w > dotdot and the char just dropped is not a
separator.  The buffer is in reverse order, so this drops characters
from the front. -/
def Filepath.backtrack (dotdot : Nat) : List Char → List Char
  | [] => []
  | c :: rest =>
    if dotdot < rest.length && !(Filepath.isPathSeparator c) then
      Filepath.backtrack dotdot rest
    else rest

/-- The main loop of filepath.Clean (path.go).  out is the output
buffer in reverse order, dotdot the limit for ".." backtracking, rem
the input from the scan position r on. -/
def Filepath.cleanLoop (rooted : Bool) (out : List Char) (dotdot : Nat)
    (rem : List Char) : List Char :=
  match rem with
  | [] => out
  | c :: rest =>
    if Filepath.isPathSeparator c then
      -- empty path element
      Filepath.cleanLoop rooted out dotdot rest
    else if c = '.' && Filepath.atBoundary rest then
      -- . element
      Filepath.cleanLoop rooted out dotdot rest
    else if Filepath.isDotDot c rest then
      -- .. element: remove to last separator
      if dotdot < out.length then
        Filepath.cleanLoop rooted (Filepath.backtrack dotdot out) dotdot rest.tail
      else if !rooted then
        -- cannot backtrack, but not rooted, so append .. element
        let out1 := if out.length > 0 then Filepath.Separator :: out else out
        Filepath.cleanLoop rooted ('.' :: '.' :: out1) ('.' :: '.' :: out1).length rest.tail
      else
        Filepath.cleanLoop rooted out dotdot rest.tail
    else
      -- real path element: add slash if needed, then copy the element
      let out1 := if (rooted && !(out.length == 1)) || (!rooted && !(out.length == 0)) then
        Filepath.Separator :: out else out
      let p := Filepath.copyElem (c :: out1) rest
      Filepath.cleanLoop rooted p.1 dotdot p.2
termination_by rem.length
decreasing_by
  all_goals simp only [List.length_cons, List.length_tail]
  all_goals first
    | omega
    | exact Nat.lt_succ_of_le (Filepath.copyElem_snd_length _ _)

/-- filepath.Clean on the Unix host (volume length 0), at the level of
character lists. -/
def Filepath.cleanList (l : List Char) : List Char :=
  match l with
  | [] => ['.']
  | c :: rest =>
    let out := if Filepath.isPathSeparator c then
      Filepath.cleanLoop true [Filepath.Separator] 1 rest
    else
      Filepath.cleanLoop false [] 0 (c :: rest)
    if out.isEmpty then ['.'] else out.reverse

/-- filepath.Clean on the Unix host.  FromSlash at the end of the Go
source is the identity since Separator is '/'. -/
def Filepath.Clean (path : String) : String := String.mk (Filepath.cleanList path.data)

/-- strings.Join: concatenate the elements with the separator between
them. -/
def Filepath.stringsJoin (sep : String) : List String → String
  | [] => ""
  | [s] => s
  | s :: rest => s ++ sep ++ Filepath.stringsJoin sep rest

/-- filepath.Join: drop leading empty elements, join the rest with the
separator and Clean the result; all elements empty gives "". -/
def Filepath.Join (elem : List String) : String :=
  match elem.dropWhile (fun e => decide (e = "")) with
  | [] => ""
  | e :: rest => Filepath.Clean (Filepath.stringsJoin "/" (e :: rest))

/-- The scan shared by filepath.Split, Dir and Base: cut the character
list just after the last separator.  The first component is everything
up to and including the last separator (empty when there is none), the
second the remainder. -/
def Filepath.splitLastSep : List Char → List Char × List Char
  | [] => ([], [])
  | c :: rest =>
    let p := Filepath.splitLastSep rest
    if p.1.isEmpty && !(Filepath.isPathSeparator c) then ([], c :: p.2)
    else (c :: p.1, p.2)

/-- filepath.Split on the Unix host (empty volume): split after the
final separator. -/
def Filepath.Split (path : String) : String × String :=
  (String.mk (Filepath.splitLastSep path.data).1, String.mk (Filepath.splitLastSep path.data).2)

/-- filepath.Dir on the Unix host: everything up to the final
separator, Cleaned. -/
def Filepath.Dir (path : String) : String :=
  Filepath.Clean (String.mk (Filepath.splitLastSep path.data).1)

/-- The trailing-separator stripping loop of filepath.Base. -/
def Filepath.dropTrailingSeps (l : List Char) : List Char :=
  (l.reverse.dropWhile Filepath.isPathSeparator).reverse

/-- filepath.Base on the Unix host. -/
def Filepath.Base (path : String) : String :=
  if path.data.isEmpty then "."
  else
    let l := Filepath.dropTrailingSeps path.data
    let f := (Filepath.splitLastSep l).2
    if f.isEmpty then String.mk [Filepath.Separator] else String.mk f

/-- filepath.FromSlash: the identity on the Unix host, where
Separator is already '/'. -/
def Filepath.FromSlash (path : String) : String := path

/-- The error values the embedded code can produce.  notAbsolutePath
models *NotAbsolutePathError (carrying the offending input), errorf a
fmt.Errorf message, host an opaque error coming from a host query. -/
inductive GoError where
  | notAbsolutePath (specified : String)
  | errorf (msg : String)
  | host (msg : String)
deriving DecidableEq

/-- The host effects consumed by the package, injected explicitly:
the result of user.Current().HomeDir, of os.Getwd(), and of
filepath.EvalSymlinks on a given path. -/
structure Host where
  userHomeDir : Except GoError String
  osGetwd : Except GoError String
  evalSymlinks : String → Except GoError String

/-- filepath.Abs: Clean if already absolute, otherwise join onto the
working directory (which can fail). -/
def Filepath.Abs (getwd : Except GoError String) (path : String) : String × Option GoError :=
  if Filepath.isAbs path then (Filepath.Clean path, none)
  else
    match getwd with
    | .error e => ("", some e)
    | .ok wd => (Filepath.Join [wd, path], none)

/-- The AbsPath struct: a wrapped path string. -/
structure AbsPath where
  underlying : String
deriving DecidableEq

/-- abspath.New: reject non-absolute input with NotAbsolutePathError,
otherwise wrap the Cleaned string. -/
def New (s : String) : AbsPath × Option GoError :=
  if !(Filepath.isAbs s) then (⟨""⟩, some (GoError.notAbsolutePath s))
  else (⟨Filepath.Clean s⟩, none)

/-- abspath.ExpandFrom: absolute input is Cleaned; empty input fails
with a generic error; a leading '~' is replaced by joining the home
directory with the rest; otherwise the input is absolutized against
the working directory. -/
def ExpandFrom (h : Host) (maybe_relative : String) : AbsPath × Option GoError :=
  if Filepath.isAbs maybe_relative then (⟨Filepath.Clean maybe_relative⟩, none)
  else if maybe_relative = "" then
    (⟨""⟩, some (GoError.errorf "Empty path cannot be expanded"))
  else if maybe_relative.data.head? = some '~' then
    match h.userHomeDir with
    | .error e => (⟨""⟩, some e)
    | .ok home =>
      (⟨Filepath.Join [home, String.mk maybe_relative.data.tail]⟩, none)
  else
    match Filepath.Abs h.osGetwd maybe_relative with
    | (_, some e) => (⟨""⟩, some e)
    | (p, none) => (⟨p⟩, none)

/-- abspath.FromSlash: convert separators then delegate to New. -/
def FromSlash (s : String) : AbsPath × Option GoError :=
  New (Filepath.FromSlash s)

/-- abspath.ExpandFromSlash: convert separators then delegate to
ExpandFrom. -/
def ExpandFromSlash (h : Host) (s : String) : AbsPath × Option GoError :=
  ExpandFrom h (Filepath.FromSlash s)

/-- abspath.Getwd.  Note the error branch of the source returns nil
as the error value (abspath.go line 99), which this embedding
reproduces. -/
def Getwd (h : Host) : AbsPath × Option GoError :=
  match h.osGetwd with
  | .error _ => (⟨""⟩, none)
  | .ok cwd => New cwd

/-- Modelled from the spec: the HomeDir constructor is exercised by
the repository's tests (TestHomeDir) and README but its definition is
not among the sources.  Per the spec it wraps the host
get-current-user-home-directory query, validating its result: it
fails when the host cannot resolve a home directory, and otherwise
behaves as New applied to the resolved directory (so it also fails
when that value is not absolute). -/
def HomeDir (h : Host) : AbsPath × Option GoError :=
  match h.userHomeDir with
  | .error e => (⟨""⟩, some e)
  | .ok home => New home

/-- Method Base: filepath.Base of the underlying string, rewrapped. -/
def AbsPath.Base (a : AbsPath) : AbsPath := ⟨Filepath.Base a.underlying⟩

/-- Method Dir: filepath.Dir of the underlying string, rewrapped. -/
def AbsPath.Dir (a : AbsPath) : AbsPath := ⟨Filepath.Dir a.underlying⟩

/-- Method Join: zero elements returns the receiver, one element is
joined directly, several are pre-joined and then joined. -/
def AbsPath.Join (a : AbsPath) (elem : List String) : AbsPath :=
  match elem with
  | [] => a
  | [e] => ⟨Filepath.Join [a.underlying, e]⟩
  | _ => ⟨Filepath.Join [a.underlying, Filepath.Join elem]⟩

/-- Method Split: filepath.Split of the underlying string, the
directory part rewrapped. -/
def AbsPath.Split (a : AbsPath) : AbsPath × String :=
  (⟨(Filepath.Split a.underlying).1⟩, (Filepath.Split a.underlying).2)

/-- Method String: the underlying string. -/
def AbsPath.String (a : AbsPath) : String := a.underlying

/-- Method EvalSymlinks: resolve through the host, then re-absolutize
with filepath.Abs; both steps can fail. -/
def AbsPath.EvalSymlinks (h : Host) (a : AbsPath) : AbsPath × Option GoError :=
  match h.evalSymlinks a.underlying with
  | .error e => (⟨""⟩, some e)
  | .ok s =>
    match Filepath.Abs h.osGetwd s with
    | (_, some e) => (⟨""⟩, some e)
    | (s2, none) => (⟨s2⟩, none)

/-- The AbsPath invariant stated by the spec: the stored string passes
the host absoluteness test, is non-empty, and is a fixed point of the
host cleaning step. -/
def AbsPath.Inv (a : AbsPath) : Prop :=
  Filepath.isAbs a.underlying = true ∧ a.underlying ≠ "" ∧
    Filepath.Clean a.underlying = a.underlying

/-!
Segment-level characterization machinery.

A rooted cleaned path is '/' followed by its segments joined by single
separators.  The functions below (interSegs, segsToChars, takeSeg,
segsOf, normSegs) build that view and are related to the imperative
Clean loop by cleanLoop_spec further down.
-/

/-- Join segments with single separators (no leading separator). -/
def Filepath.interSegs : List (List Char) → List Char
  | [] => []
  | [s] => s
  | s :: rest => s ++ '/' :: Filepath.interSegs rest

/-- The character form of a rooted path with the given segments. -/
def Filepath.segsToChars (segs : List (List Char)) : List Char :=
  '/' :: Filepath.interSegs segs

/-- A well-formed path segment: non-empty, not a dot element, and free
of separators. -/
def Filepath.ValidSeg (s : List Char) : Prop :=
  s ≠ [] ∧ s ≠ ['.'] ∧ s ≠ ['.', '.'] ∧ ∀ c ∈ s, Filepath.isPathSeparator c = false

/-- Split off the maximal separator-free prefix. -/
def Filepath.takeSeg : List Char → List Char × List Char
  | [] => ([], [])
  | c :: rest =>
    if Filepath.isPathSeparator c then ([], c :: rest)
    else (c :: (Filepath.takeSeg rest).1, (Filepath.takeSeg rest).2)

/-- Split a character list into its separator-free segments, dropping
empty fields; cur is the current partial segment in reverse. -/
def Filepath.segsOfAux : List Char → List Char → List (List Char)
  | cur, [] => if cur.isEmpty then [] else [cur.reverse]
  | cur, c :: rest =>
    if Filepath.isPathSeparator c then
      if cur.isEmpty then Filepath.segsOfAux [] rest
      else cur.reverse :: Filepath.segsOfAux [] rest
    else Filepath.segsOfAux (c :: cur) rest

/-- The segments of a character list. -/
def Filepath.segsOf (l : List Char) : List (List Char) := Filepath.segsOfAux [] l

/-- The lexical effect of Clean on a rooted segment list: drop "."
segments, let ".." drop the previous segment (or nothing at the
root), keep the rest. -/
def Filepath.normSegs (acc : List (List Char)) : List (List Char) → List (List Char)
  | [] => acc
  | s :: rest =>
    if s = ['.'] then Filepath.normSegs acc rest
    else if s = ['.', '.'] then Filepath.normSegs acc.dropLast rest
    else Filepath.normSegs (acc ++ [s]) rest

theorem Filepath.takeSeg_boundary {l : List Char} (h : Filepath.atBoundary l = true) :
    Filepath.takeSeg l = ([], l) := by
  cases l with
  | nil => rfl
  | cons c rest =>
    simp only [Filepath.atBoundary] at h
    simp [Filepath.takeSeg, h]

theorem Filepath.takeSeg_cons_nonsep {c : Char} (rest : List Char)
    (h : Filepath.isPathSeparator c = false) :
    Filepath.takeSeg (c :: rest) = (c :: (Filepath.takeSeg rest).1, (Filepath.takeSeg rest).2) := by
  simp [Filepath.takeSeg, h]

theorem Filepath.takeSeg_fst_nil_iff (l : List Char) :
    (Filepath.takeSeg l).1 = [] ↔ Filepath.atBoundary l = true := by
  cases l with
  | nil => simp [Filepath.takeSeg, Filepath.atBoundary]
  | cons c rest =>
    simp only [Filepath.takeSeg, Filepath.atBoundary]
    split <;> simp_all

theorem Filepath.takeSeg_fst_nonsep (l : List Char) :
    ∀ c ∈ (Filepath.takeSeg l).1, Filepath.isPathSeparator c = false := by
  induction l with
  | nil => simp [Filepath.takeSeg]
  | cons c rest ih =>
    simp only [Filepath.takeSeg]
    split
    · simp
    · next h =>
      intro x hx
      rcases List.mem_cons.mp hx with h1 | h2
      · subst h1; exact Bool.not_eq_true _ ▸ (by simpa using h)
      · exact ih x h2

theorem Filepath.takeSeg_snd_length (l : List Char) :
    (Filepath.takeSeg l).2.length ≤ l.length := by
  induction l with
  | nil => simp [Filepath.takeSeg]
  | cons c rest ih =>
    simp only [Filepath.takeSeg]
    split
    · simp
    · simpa using Nat.le_trans ih (Nat.le_succ _)

theorem Filepath.takeSeg_all_nonsep {l : List Char}
    (h : ∀ c ∈ l, Filepath.isPathSeparator c = false) :
    Filepath.takeSeg l = (l, []) := by
  induction l with
  | nil => rfl
  | cons c rest ih =>
    have hc := h c (List.mem_cons_self c rest)
    have hr := ih fun x hx => h x (List.mem_cons_of_mem c hx)
    simp [Filepath.takeSeg, hc, hr]

theorem Filepath.takeSeg_append_sep (l m : List Char) :
    Filepath.takeSeg (l ++ '/' :: m)
      = ((Filepath.takeSeg l).1, (Filepath.takeSeg l).2 ++ '/' :: m) := by
  induction l with
  | nil => simp [Filepath.takeSeg, Filepath.isPathSeparator]
  | cons c rest ih =>
    simp only [List.cons_append, Filepath.takeSeg]
    split <;> simp_all

theorem Filepath.copyElem_eq (l out : List Char) :
    Filepath.copyElem out l = ((Filepath.takeSeg l).1.reverse ++ out, (Filepath.takeSeg l).2) := by
  induction l generalizing out with
  | nil => simp [Filepath.copyElem, Filepath.takeSeg]
  | cons c rest ih =>
    simp only [Filepath.copyElem, Filepath.takeSeg]
    split
    · simp
    · simp [ih]

theorem Filepath.segsOfAux_ne_nil (l : List Char) :
    ∀ cur, cur ≠ [] →
      Filepath.segsOfAux cur l
        = (cur.reverse ++ (Filepath.takeSeg l).1) :: Filepath.segsOf ((Filepath.takeSeg l).2) := by
  induction l with
  | nil =>
    intro cur hcur
    simp [Filepath.segsOfAux, Filepath.takeSeg, Filepath.segsOf, hcur]
  | cons c rest ih =>
    intro cur hcur
    simp only [Filepath.segsOfAux, Filepath.takeSeg]
    split
    · next h => simp [Filepath.segsOf, hcur, Filepath.segsOfAux, h]
    · next h =>
      rw [ih (c :: cur) (by simp)]
      simp

theorem Filepath.segsOf_nil : Filepath.segsOf [] = [] := rfl

theorem Filepath.segsOf_cons_sep {c : Char} (l : List Char)
    (h : Filepath.isPathSeparator c = true) :
    Filepath.segsOf (c :: l) = Filepath.segsOf l := by
  simp [Filepath.segsOf, Filepath.segsOfAux, h]

theorem Filepath.segsOf_cons_nonsep {c : Char} (rest : List Char)
    (h : Filepath.isPathSeparator c = false) :
    Filepath.segsOf (c :: rest)
      = (c :: (Filepath.takeSeg rest).1) :: Filepath.segsOf ((Filepath.takeSeg rest).2) := by
  simp only [Filepath.segsOf, Filepath.segsOfAux, h]
  rw [Filepath.segsOfAux_ne_nil rest [c] (by simp)]
  simp [Filepath.segsOf]

theorem Filepath.segsOfAux_append_sep (m : List Char) :
    ∀ (l cur : List Char),
      Filepath.segsOfAux cur (l ++ '/' :: m) = Filepath.segsOfAux cur l ++ Filepath.segsOf m := by
  intro l
  induction l with
  | nil =>
    intro cur
    by_cases hcur : cur.isEmpty
    · simp [Filepath.segsOfAux, Filepath.isPathSeparator, hcur, Filepath.segsOf]
    · simp [Filepath.segsOfAux, Filepath.isPathSeparator, hcur, Filepath.segsOf]
  | cons c rest ih =>
    intro cur
    simp only [List.cons_append, Filepath.segsOfAux]
    split
    · by_cases hcur : cur.isEmpty <;> simp [hcur, ih]
    · exact ih (c :: cur)

theorem Filepath.segsOf_append_sep (l m : List Char) :
    Filepath.segsOf (l ++ '/' :: m) = Filepath.segsOf l ++ Filepath.segsOf m :=
  Filepath.segsOfAux_append_sep m l []

theorem Filepath.segsOf_single {l : List Char} (h0 : l ≠ [])
    (h : ∀ c ∈ l, Filepath.isPathSeparator c = false) :
    Filepath.segsOf l = [l] := by
  cases l with
  | nil => exact absurd rfl h0
  | cons c rest =>
    rw [Filepath.segsOf_cons_nonsep rest (h c (List.mem_cons_self c rest))]
    rw [Filepath.takeSeg_all_nonsep fun x hx => h x (List.mem_cons_of_mem c hx)]
    simp [Filepath.segsOf_nil]

theorem Filepath.segsOfAux_members (l : List Char) :
    ∀ cur, (∀ c ∈ cur, Filepath.isPathSeparator c = false) →
      ∀ s ∈ Filepath.segsOfAux cur l, s ≠ [] ∧ ∀ c ∈ s, Filepath.isPathSeparator c = false := by
  induction l with
  | nil =>
    intro cur hcur s hs
    simp only [Filepath.segsOfAux] at hs
    split at hs
    · simp at hs
    · next h =>
      simp only [List.mem_singleton] at hs
      subst hs
      constructor
      · simpa [List.isEmpty_iff] using h
      · intro c hc
        exact hcur c (List.mem_reverse.mp hc)
  | cons c rest ih =>
    intro cur hcur s hs
    simp only [Filepath.segsOfAux] at hs
    split at hs
    · split at hs
      · exact ih [] (by simp) s hs
      · next h =>
        rcases List.mem_cons.mp hs with h1 | h2
        · subst h1
          refine ⟨by simpa [List.isEmpty_iff] using h, fun x hx => hcur x (List.mem_reverse.mp hx)⟩
        · exact ih [] (by simp) s h2
    · next h =>
      refine ih (c :: cur) ?_ s hs
      intro x hx
      rcases List.mem_cons.mp hx with h1 | h2
      · subst h1; simpa using h
      · exact hcur x h2

theorem Filepath.segsOf_members {l : List Char} {s : List Char} (hs : s ∈ Filepath.segsOf l) :
    s ≠ [] ∧ ∀ c ∈ s, Filepath.isPathSeparator c = false :=
  Filepath.segsOfAux_members l [] (by simp) s hs

theorem Filepath.interSegs_cons₂ (s r : List Char) (rs : List (List Char)) :
    Filepath.interSegs (s :: r :: rs) = s ++ '/' :: Filepath.interSegs (r :: rs) := rfl

theorem Filepath.interSegs_concat {segs : List (List Char)} (x : List Char) (h : segs ≠ []) :
    Filepath.interSegs (segs ++ [x]) = Filepath.interSegs segs ++ '/' :: x := by
  induction segs with
  | nil => exact absurd rfl h
  | cons s rest ih =>
    cases rest with
    | nil => simp [Filepath.interSegs]
    | cons r rs =>
      have e1 : (s :: r :: rs) ++ [x] = s :: r :: (rs ++ [x]) := by simp
      rw [e1, Filepath.interSegs_cons₂, Filepath.interSegs_cons₂,
        show r :: (rs ++ [x]) = (r :: rs) ++ [x] from rfl, ih (by simp)]
      simp

theorem Filepath.segsOf_interSegs {segs : List (List Char)}
    (h : ∀ s ∈ segs, s ≠ [] ∧ ∀ c ∈ s, Filepath.isPathSeparator c = false) :
    Filepath.segsOf (Filepath.interSegs segs) = segs := by
  induction segs with
  | nil => rfl
  | cons s rest ih =>
    cases rest with
    | nil =>
      have hs := h s (List.mem_cons_self s [])
      simpa [Filepath.interSegs] using Filepath.segsOf_single hs.1 hs.2
    | cons r rs =>
      rw [Filepath.interSegs_cons₂, Filepath.segsOf_append_sep]
      have hs := h s (List.mem_cons_self s _)
      rw [Filepath.segsOf_single hs.1 hs.2, ih fun x hx => h x (List.mem_cons_of_mem s hx)]
      rfl

theorem Filepath.normSegs_append (xs ys : List (List Char)) :
    ∀ acc, Filepath.normSegs acc (xs ++ ys) = Filepath.normSegs (Filepath.normSegs acc xs) ys := by
  induction xs with
  | nil => intro acc; rfl
  | cons s rest ih =>
    intro acc
    simp only [List.cons_append, Filepath.normSegs]
    split
    · exact ih acc
    · split
      · exact ih acc.dropLast
      · exact ih (acc ++ [s])

theorem Filepath.normSegs_no_dots {xs : List (List Char)}
    (h : ∀ s ∈ xs, s ≠ ['.'] ∧ s ≠ ['.', '.']) :
    ∀ acc, Filepath.normSegs acc xs = acc ++ xs := by
  induction xs with
  | nil => intro acc; simp [Filepath.normSegs]
  | cons s rest ih =>
    intro acc
    have hs := h s (List.mem_cons_self s rest)
    simp only [Filepath.normSegs, if_neg hs.1, if_neg hs.2]
    rw [ih fun x hx => h x (List.mem_cons_of_mem s hx)]
    simp

theorem Filepath.normSegs_valid {xs : List (List Char)}
    (hxs : ∀ s ∈ xs, s ≠ [] ∧ ∀ c ∈ s, Filepath.isPathSeparator c = false) :
    ∀ acc, (∀ s ∈ acc, Filepath.ValidSeg s) →
      ∀ s ∈ Filepath.normSegs acc xs, Filepath.ValidSeg s := by
  induction xs with
  | nil => intro acc hacc; simpa [Filepath.normSegs] using hacc
  | cons s rest ih =>
    intro acc hacc t ht
    have hrest := fun x hx => hxs x (List.mem_cons_of_mem s hx)
    simp only [Filepath.normSegs] at ht
    split at ht
    · exact ih hrest acc hacc t ht
    · split at ht
      · refine ih hrest acc.dropLast ?_ t ht
        intro x hx
        exact hacc x (List.dropLast_subset _ hx)
      · next h1 h2 =>
        refine ih hrest (acc ++ [s]) ?_ t ht
        intro x hx
        rcases List.mem_append.mp hx with h3 | h4
        · exact hacc x h3
        · have hx' : x = s := by simpa using h4
          subst hx'
          have hs := hxs x (List.mem_cons_self x rest)
          exact ⟨hs.1, h1, h2, hs.2⟩

theorem Filepath.interSegs_ne_nil {acc : List (List Char)} (h : acc ≠ [])
    (hacc : ∀ s ∈ acc, Filepath.ValidSeg s) : Filepath.interSegs acc ≠ [] := by
  cases acc with
  | nil => exact absurd rfl h
  | cons s rest =>
    cases rest with
    | nil => simpa [Filepath.interSegs] using (hacc s (by simp)).1
    | cons r rs => simp [Filepath.interSegs_cons₂]

theorem Filepath.backtrack_cons (dotdot : Nat) (c : Char) (rest : List Char) :
    Filepath.backtrack dotdot (c :: rest) =
      if dotdot < rest.length && !(Filepath.isPathSeparator c) then
        Filepath.backtrack dotdot rest
      else rest := rfl

theorem Filepath.backtrack_chunk (t : List Char) :
    ∀ y, y ≠ [] → (∀ c ∈ y, Filepath.isPathSeparator c = false) →
      Filepath.backtrack 1 (y ++ '/' :: t) = if t.isEmpty then ['/'] else t := by
  intro y
  induction y with
  | nil => intro h; exact absurd rfl h
  | cons c y' ih =>
    intro _ hsep
    have hc : Filepath.isPathSeparator c = false := hsep c (List.mem_cons_self c y')
    cases y' with
    | nil =>
      cases t with
      | nil => simp [Filepath.backtrack_cons, hc]
      | cons a t' =>
        simp only [List.cons_append, List.nil_append, Filepath.backtrack_cons]
        rw [if_pos (by simp only [hc, Bool.not_false, Bool.and_true,
          List.length_cons, decide_eq_true_eq]; omega)]
        simp [Filepath.backtrack_cons, Filepath.isPathSeparator]
    | cons d y'' =>
      have h2 := ih (by simp) fun x hx => hsep x (List.mem_cons_of_mem c hx)
      simp only [List.cons_append] at h2 ⊢
      rw [Filepath.backtrack_cons, if_pos (by simp only [hc, Bool.not_false,
        Bool.and_true, List.length_cons, List.length_append, decide_eq_true_eq]; omega)]
      exact h2

theorem Filepath.backtrack_segsToChars (as : List (List Char)) (x : List Char)
    (hx : x ≠ []) (hxs : ∀ c ∈ x, Filepath.isPathSeparator c = false) :
    Filepath.backtrack 1 ((Filepath.segsToChars (as ++ [x])).reverse)
      = (Filepath.segsToChars as).reverse := by
  have hxr : x.reverse ≠ [] := by simpa using hx
  have hxrs : ∀ c ∈ x.reverse, Filepath.isPathSeparator c = false :=
    fun c hc => hxs c (List.mem_reverse.mp hc)
  cases as with
  | nil =>
    have e1 : (Filepath.segsToChars ([] ++ [x])).reverse = x.reverse ++ '/' :: [] := by
      simp [Filepath.segsToChars, Filepath.interSegs]
    rw [e1, Filepath.backtrack_chunk [] x.reverse hxr hxrs]
    simp [Filepath.segsToChars, Filepath.interSegs]
  | cons a as' =>
    have e1 : (Filepath.segsToChars ((a :: as') ++ [x])).reverse
        = x.reverse ++ '/' :: (Filepath.segsToChars (a :: as')).reverse := by
      rw [Filepath.segsToChars, Filepath.interSegs_concat x (by simp)]
      simp [Filepath.segsToChars]
    rw [e1, Filepath.backtrack_chunk _ x.reverse hxr hxrs]
    simp [Filepath.segsToChars]

theorem Filepath.cleanLoop_nil (rooted : Bool) (out : List Char) (dotdot : Nat) :
    Filepath.cleanLoop rooted out dotdot [] = out := by
  rw [Filepath.cleanLoop]

theorem Filepath.segsOf_dot {rest : List Char} (hb : Filepath.atBoundary rest = true) :
    Filepath.segsOf ('.' :: rest) = ['.'] :: Filepath.segsOf rest := by
  rw [Filepath.segsOf_cons_nonsep rest (by decide), Filepath.takeSeg_boundary hb]

theorem Filepath.segsOf_dotdot {rest2 : List Char} (hb : Filepath.atBoundary rest2 = true) :
    Filepath.segsOf ('.' :: '.' :: rest2) = ['.', '.'] :: Filepath.segsOf rest2 := by
  rw [Filepath.segsOf_cons_nonsep _ (by decide),
    Filepath.takeSeg_cons_nonsep _ (by decide), Filepath.takeSeg_boundary hb]

theorem Filepath.normSegs_dot (acc : List (List Char)) (X : List (List Char)) :
    Filepath.normSegs acc (['.'] :: X) = Filepath.normSegs acc X := by
  simp [Filepath.normSegs]

theorem Filepath.normSegs_dotdot (acc : List (List Char)) (X : List (List Char)) :
    Filepath.normSegs acc (['.', '.'] :: X) = Filepath.normSegs acc.dropLast X := by
  simp [Filepath.normSegs]

theorem Filepath.normSegs_push {s : List Char} (h1 : s ≠ ['.']) (h2 : s ≠ ['.', '.'])
    (acc X : List (List Char)) :
    Filepath.normSegs acc (s :: X) = Filepath.normSegs (acc ++ [s]) X := by
  simp [Filepath.normSegs, h1, h2]

theorem Filepath.cleanLoop_default (c : Char) (rest : List Char) (acc : List (List Char))
    (hacc : ∀ s ∈ acc, Filepath.ValidSeg s)
    (hsep : ¬ Filepath.isPathSeparator c = true)
    (hdot : ¬ (decide (c = '.') && Filepath.atBoundary rest) = true)
    (hdd : ¬ Filepath.isDotDot c rest = true) :
    Filepath.cleanLoop true ((Filepath.segsToChars acc).reverse) 1 (c :: rest)
      = Filepath.cleanLoop true
          ((Filepath.segsToChars (acc ++ [c :: (Filepath.takeSeg rest).1])).reverse) 1
          ((Filepath.takeSeg rest).2) := by
  rw [Filepath.cleanLoop]
  rw [if_neg hsep, if_neg hdot, if_neg hdd]
  simp only [Filepath.copyElem_eq]
  by_cases hne : acc = []
  · subst hne
    simp [Filepath.segsToChars, Filepath.interSegs]
  · have h3 : Filepath.interSegs acc ≠ [] := Filepath.interSegs_ne_nil hne hacc
    have h4 : 0 < (Filepath.interSegs acc).length := List.length_pos.mpr h3
    have h2 : (((Filepath.segsToChars acc).reverse.length == 1) : Bool) = false := by
      simp only [List.length_reverse, Filepath.segsToChars, List.length_cons]
      simp only [beq_eq_false_iff_ne, ne_eq]
      omega
    simp only [h2, Bool.not_false, Bool.true_and, Bool.not_true, Bool.false_and,
      Bool.or_false, if_pos]
    simp only [Filepath.segsToChars]
    rw [Filepath.interSegs_concat _ hne]
    simp [Filepath.Separator]

theorem Filepath.cleanLoop_spec (n : Nat) :
    ∀ (rem : List Char) (acc : List (List Char)), rem.length ≤ n →
      (∀ s ∈ acc, Filepath.ValidSeg s) →
      Filepath.cleanLoop true ((Filepath.segsToChars acc).reverse) 1 rem
        = (Filepath.segsToChars (Filepath.normSegs acc (Filepath.segsOf rem))).reverse := by
  induction n with
  | zero =>
    intro rem acc hlen _
    have hr : rem = [] := List.length_eq_zero.mp (Nat.le_zero.mp hlen)
    subst hr
    rw [Filepath.cleanLoop_nil]
    rfl
  | succ n ih =>
    intro rem acc hlen hacc
    cases rem with
    | nil => rw [Filepath.cleanLoop_nil]; rfl
    | cons c rest =>
      have hlen' : rest.length ≤ n := by
        simp only [List.length_cons] at hlen; omega
      by_cases hsep : Filepath.isPathSeparator c = true
      · rw [Filepath.cleanLoop, if_pos hsep, Filepath.segsOf_cons_sep rest hsep]
        exact ih rest acc hlen' hacc
      · have hsep' : Filepath.isPathSeparator c = false := by simpa using hsep
        by_cases hdot : (decide (c = '.') && Filepath.atBoundary rest) = true
        · -- "." element: skipped on both sides
          obtain ⟨hc, hb⟩ := Bool.and_eq_true_iff.mp hdot
          have hc' : c = '.' := of_decide_eq_true hc
          subst hc'
          rw [Filepath.cleanLoop, if_neg hsep, if_pos hdot,
            Filepath.segsOf_dot hb, Filepath.normSegs_dot]
          exact ih rest acc hlen' hacc
        · by_cases hdd : Filepath.isDotDot c rest = true
          · -- ".." element
            cases rest with
            | nil => simp [Filepath.isDotDot] at hdd
            | cons c2 rest2 =>
              have hdd' := hdd
              simp only [Filepath.isDotDot, Bool.and_eq_true, decide_eq_true_eq] at hdd'
              obtain ⟨hc, hc2, hb⟩ := hdd'
              subst hc; subst hc2
              have hlen2 : rest2.length ≤ n := by
                simp only [List.length_cons] at hlen'; omega
              rw [Filepath.cleanLoop, if_neg hsep, if_neg hdot, if_pos hdd]
              rw [Filepath.segsOf_dotdot hb, Filepath.normSegs_dotdot]
              rcases List.eq_nil_or_concat acc with hnil | ⟨as, x, hcat⟩
              · subst hnil
                rw [if_neg (by simp [Filepath.segsToChars, Filepath.interSegs])]
                rw [if_neg (by simp)]
                simpa using ih rest2 [] hlen2 (by simp)
              · rw [List.concat_eq_append] at hcat
                subst hcat
                have hxv : Filepath.ValidSeg x := hacc x (by simp)
                have hgt : 1 < (Filepath.segsToChars (as ++ [x])).length := by
                  have h3 : Filepath.interSegs (as ++ [x]) ≠ [] :=
                    Filepath.interSegs_ne_nil (by simp) hacc
                  have h4 : 0 < (Filepath.interSegs (as ++ [x])).length := List.length_pos.mpr h3
                  simp only [Filepath.segsToChars, List.length_cons]
                  omega
                rw [if_pos (by simpa using hgt)]
                rw [Filepath.backtrack_segsToChars as x hxv.1 hxv.2.2.2]
                rw [List.dropLast_concat]
                have haccas : ∀ s ∈ as, Filepath.ValidSeg s :=
                  fun s hs => hacc s (by simp [hs])
                simpa using ih rest2 as hlen2 haccas
          · -- real path element
            rw [Filepath.cleanLoop_default c rest acc hacc hsep hdot hdd]
            have he : Filepath.ValidSeg (c :: (Filepath.takeSeg rest).1) := by
              refine ⟨by simp, ?_, ?_, ?_⟩
              · intro he
                have hc : c = '.' ∧ (Filepath.takeSeg rest).1 = [] := by
                  simpa using he
                have hb := (Filepath.takeSeg_fst_nil_iff rest).mp hc.2
                exact hdot (by simp [hc.1, hb])
              · intro he
                have hc : c = '.' ∧ (Filepath.takeSeg rest).1 = ['.'] := by
                  simpa using he
                cases rest with
                | nil => simp [Filepath.takeSeg] at hc
                | cons c2 r2 =>
                  by_cases hs2 : Filepath.isPathSeparator c2 = true
                  · rw [Filepath.takeSeg_boundary (by simpa [Filepath.atBoundary] using hs2)] at hc
                    simp at hc
                  · rw [Filepath.takeSeg_cons_nonsep r2 (by simpa using hs2)] at hc
                    have hc2 : c2 = '.' ∧ (Filepath.takeSeg r2).1 = [] := by
                      simpa using hc.2
                    have hb2 := (Filepath.takeSeg_fst_nil_iff r2).mp hc2.2
                    exact hdd (by simp [Filepath.isDotDot, hc.1, hc2.1, hb2])
              · intro d hd
                rcases List.mem_cons.mp hd with h1 | h2
                · subst h1; exact hsep'
                · exact Filepath.takeSeg_fst_nonsep rest d h2
            have hlen3 : (Filepath.takeSeg rest).2.length ≤ n :=
              Nat.le_trans (Filepath.takeSeg_snd_length rest) hlen'
            have haccE : ∀ s ∈ acc ++ [c :: (Filepath.takeSeg rest).1], Filepath.ValidSeg s := by
              intro s hs
              rcases List.mem_append.mp hs with h1 | h2
              · exact hacc s h1
              · have : s = c :: (Filepath.takeSeg rest).1 := by simpa using h2
                subst this; exact he
            rw [Filepath.segsOf_cons_nonsep rest hsep',
              Filepath.normSegs_push he.2.1 he.2.2.1]
            exact ih (Filepath.takeSeg rest).2 (acc ++ [c :: (Filepath.takeSeg rest).1]) hlen3 haccE

theorem strMk_data (s : String) : String.mk s.data = s := by
  cases s; rfl

theorem strData_append (s t : String) : (s ++ t).data = s.data ++ t.data := by
  cases s; cases t; rfl

/-- The master description of Clean on a rooted path: split into
segments, apply the lexical dot/dotdot rules, reassemble. -/
theorem Filepath.clean_mk_rooted (l : List Char) :
    Filepath.Clean (String.mk ('/' :: l))
      = String.mk (Filepath.segsToChars (Filepath.normSegs [] (Filepath.segsOf l))) := by
  have h1 : Filepath.cleanLoop true [Filepath.Separator] 1 l
      = (Filepath.segsToChars (Filepath.normSegs [] (Filepath.segsOf l))).reverse := by
    have h0 := Filepath.cleanLoop_spec l.length l [] le_rfl (by simp)
    simpa [Filepath.segsToChars, Filepath.interSegs, Filepath.Separator] using h0
  have hs : Filepath.isPathSeparator '/' = true := by decide
  rw [Filepath.Clean]
  simp only [Filepath.cleanList, hs, if_true, h1]
  simp [Filepath.segsToChars]

theorem Filepath.clean_segs_valid (l : List Char) :
    ∀ s ∈ Filepath.normSegs [] (Filepath.segsOf l), Filepath.ValidSeg s :=
  Filepath.normSegs_valid (fun _ hs => Filepath.segsOf_members hs) [] (by simp)

theorem Filepath.clean_fix {segs : List (List Char)}
    (h : ∀ s ∈ segs, Filepath.ValidSeg s) :
    Filepath.Clean (String.mk (Filepath.segsToChars segs))
      = String.mk (Filepath.segsToChars segs) := by
  have e : Filepath.segsToChars segs = '/' :: Filepath.interSegs segs := rfl
  rw [e, Filepath.clean_mk_rooted]
  rw [Filepath.segsOf_interSegs (fun s hs => ⟨(h s hs).1, (h s hs).2.2.2⟩)]
  rw [Filepath.normSegs_no_dots (fun s hs => ⟨(h s hs).2.1, (h s hs).2.2.1⟩) []]
  simp [Filepath.segsToChars]

theorem Filepath.isAbs_mk_cons_slash (l : List Char) :
    Filepath.isAbs (String.mk ('/' :: l)) = true := by
  simp [Filepath.isAbs, Filepath.isPathSeparator]

theorem Filepath.isAbs_shape {s : String} (h : Filepath.isAbs s = true) :
    ∃ l, s.data = '/' :: l := by
  cases hd : s.data with
  | nil => rw [Filepath.isAbs, hd] at h; simp at h
  | cons c l =>
    rw [Filepath.isAbs, hd] at h
    have hc : c = '/' := by simpa [Filepath.isPathSeparator] using h
    exact ⟨l, by rw [hc]⟩

theorem AbsPath.inv_structure {a : AbsPath} (h : a.Inv) :
    ∃ segs, (∀ s ∈ segs, Filepath.ValidSeg s)
      ∧ a.underlying.data = Filepath.segsToChars segs := by
  obtain ⟨l, hl⟩ := Filepath.isAbs_shape h.1
  refine ⟨Filepath.normSegs [] (Filepath.segsOf l), Filepath.clean_segs_valid l, ?_⟩
  have h2 : Filepath.Clean a.underlying = a.underlying := h.2.2
  have h3 : a.underlying = String.mk ('/' :: l) := by
    conv_lhs => rw [← strMk_data a.underlying, hl]
  rw [h3, Filepath.clean_mk_rooted] at h2
  have h4 := congrArg String.data h2
  have h5 : Filepath.segsToChars (Filepath.normSegs [] (Filepath.segsOf l)) = '/' :: l := by
    simpa using h4
  rw [hl]
  exact h5.symm

theorem AbsPath.inv_clean_rooted (l : List Char) :
    (AbsPath.mk (Filepath.Clean (String.mk ('/' :: l)))).Inv := by
  unfold AbsPath.Inv
  have hu : (AbsPath.mk (Filepath.Clean (String.mk ('/' :: l)))).underlying
      = Filepath.Clean (String.mk ('/' :: l)) := rfl
  rw [hu, Filepath.clean_mk_rooted]
  refine ⟨Filepath.isAbs_mk_cons_slash _, ?_, Filepath.clean_fix (Filepath.clean_segs_valid l)⟩
  intro hcontra
  have := congrArg String.data hcontra
  simp [Filepath.segsToChars] at this

theorem Filepath.Join_two {u : String} (x : String) (hu : u ≠ "") :
    Filepath.Join [u, x] = Filepath.Clean (u ++ "/" ++ x) := by
  have hd : [u, x].dropWhile (fun e => decide (e = "")) = [u, x] := by
    simp [List.dropWhile_cons, hu]
  simp only [Filepath.Join, hd]
  simp [Filepath.stringsJoin]

theorem Filepath.join_chars {u : String} (x : String) (hu : u ≠ "") :
    Filepath.Join [u, x] = Filepath.Clean (String.mk (u.data ++ '/' :: x.data)) := by
  rw [Filepath.Join_two x hu]
  congr 1
  apply String.ext
  rw [strData_append, strData_append]
  simp [show ("/" : String).data = ['/'] from rfl]

theorem Filepath.segsToChars_mk_ne_empty (segs : List (List Char)) :
    String.mk (Filepath.segsToChars segs) ≠ "" := by
  intro h
  have := congrArg String.data h
  simp [Filepath.segsToChars] at this

theorem Filepath.join_segs {segs : List (List Char)} {x : List Char}
    (hsegs : ∀ s ∈ segs, Filepath.ValidSeg s) (hx : Filepath.ValidSeg x) :
    Filepath.Join [String.mk (Filepath.segsToChars segs), String.mk x]
      = String.mk (Filepath.segsToChars (segs ++ [x])) := by
  rw [Filepath.join_chars (String.mk x) (Filepath.segsToChars_mk_ne_empty segs)]
  have e1 : (String.mk (Filepath.segsToChars segs)).data ++ '/' :: (String.mk x).data
      = '/' :: (Filepath.interSegs segs ++ '/' :: x) := by
    simp [Filepath.segsToChars]
  rw [e1, Filepath.clean_mk_rooted, Filepath.segsOf_append_sep,
    Filepath.segsOf_interSegs (fun s hs => ⟨(hsegs s hs).1, (hsegs s hs).2.2.2⟩),
    Filepath.segsOf_single hx.1 hx.2.2.2]
  rw [Filepath.normSegs_no_dots ?hnd []]
  · simp
  case hnd =>
    intro s hs
    rcases List.mem_append.mp hs with h1 | h2
    · exact ⟨(hsegs s h1).2.1, (hsegs s h1).2.2.1⟩
    · have hx2 : s = x := by simpa using h2
      subst hx2
      exact ⟨hx.2.1, hx.2.2.1⟩

theorem Filepath.splitLastSep_nonsep {m : List Char}
    (hm : ∀ c ∈ m, Filepath.isPathSeparator c = false) :
    Filepath.splitLastSep m = ([], m) := by
  induction m with
  | nil => rfl
  | cons c r ih =>
    have hc := hm c (List.mem_cons_self c r)
    have hr := ih fun x hx => hm x (List.mem_cons_of_mem c hx)
    simp [Filepath.splitLastSep, hr, hc]

theorem Filepath.splitLastSep_cons (c : Char) (rest : List Char) :
    Filepath.splitLastSep (c :: rest) =
      if (Filepath.splitLastSep rest).1.isEmpty && !(Filepath.isPathSeparator c)
      then ([], c :: (Filepath.splitLastSep rest).2)
      else (c :: (Filepath.splitLastSep rest).1, (Filepath.splitLastSep rest).2) := rfl

theorem Filepath.splitLastSep_append {l m : List Char}
    (hm : ∀ c ∈ m, Filepath.isPathSeparator c = false) :
    Filepath.splitLastSep (l ++ '/' :: m) = (l ++ ['/'], m) := by
  induction l with
  | nil =>
    rw [List.nil_append, Filepath.splitLastSep_cons, Filepath.splitLastSep_nonsep hm]
    simp [Filepath.isPathSeparator]
  | cons c l' ih =>
    rw [List.cons_append, Filepath.splitLastSep_cons, ih]
    simp

theorem Filepath.dir_segs {segs : List (List Char)} {x : List Char}
    (hsegs : ∀ s ∈ segs, Filepath.ValidSeg s) (hx : Filepath.ValidSeg x) :
    Filepath.Dir (String.mk (Filepath.segsToChars (segs ++ [x])))
      = String.mk (Filepath.segsToChars segs) := by
  cases segs with
  | nil =>
    rw [Filepath.Dir]
    have e1 : (String.mk (Filepath.segsToChars ([] ++ [x]))).data = [] ++ '/' :: x := by
      simp [Filepath.segsToChars, Filepath.interSegs]
    rw [e1, Filepath.splitLastSep_append hx.2.2.2]
    have e2 := Filepath.clean_mk_rooted []
    simpa [Filepath.segsOf_nil, Filepath.normSegs] using e2
  | cons a as =>
    rw [Filepath.Dir]
    have e1 : (String.mk (Filepath.segsToChars ((a :: as) ++ [x]))).data
        = Filepath.segsToChars (a :: as) ++ '/' :: x := by
      simp only [Filepath.segsToChars]
      rw [Filepath.interSegs_concat x (by simp)]
      simp
    rw [e1, Filepath.splitLastSep_append hx.2.2.2]
    have e2 : Filepath.segsToChars (a :: as) ++ ['/']
        = '/' :: (Filepath.interSegs (a :: as) ++ ['/']) := by
      simp [Filepath.segsToChars]
    rw [show (Filepath.segsToChars (a :: as) ++ ['/'], x).1
        = Filepath.segsToChars (a :: as) ++ ['/'] from rfl, e2, Filepath.clean_mk_rooted]
    have e3 : Filepath.segsOf (Filepath.interSegs (a :: as) ++ ['/'])
        = Filepath.segsOf (Filepath.interSegs (a :: as)) := by
      have e4 := Filepath.segsOf_append_sep (Filepath.interSegs (a :: as)) []
      simpa [Filepath.segsOf_nil] using e4
    rw [e3, Filepath.segsOf_interSegs (fun s hs => ⟨(hsegs s hs).1, (hsegs s hs).2.2.2⟩),
      Filepath.normSegs_no_dots (fun s hs => ⟨(hsegs s hs).2.1, (hsegs s hs).2.2.1⟩) []]
    simp

theorem Filepath.isAbs_shape' {s : String} (h : Filepath.isAbs s = true) :
    ∃ l, s = String.mk ('/' :: l) := by
  obtain ⟨l, hl⟩ := Filepath.isAbs_shape h
  refine ⟨l, ?_⟩
  conv_lhs => rw [← strMk_data s, hl]

theorem AbsPath.inv_segsToChars {segs : List (List Char)}
    (h : ∀ s ∈ segs, Filepath.ValidSeg s) :
    (AbsPath.mk (String.mk (Filepath.segsToChars segs))).Inv :=
  ⟨Filepath.isAbs_mk_cons_slash _, Filepath.segsToChars_mk_ne_empty segs, Filepath.clean_fix h⟩

theorem joinWith_inv {u : String} (x : String) (hu : Filepath.isAbs u = true) :
    (AbsPath.mk (Filepath.Join [u, x])).Inv := by
  obtain ⟨l, hl⟩ := Filepath.isAbs_shape' hu
  subst hl
  have hu' : String.mk ('/' :: l) ≠ "" := by
    intro hc
    have := congrArg String.data hc
    simp at this
  rw [Filepath.join_chars x hu']
  rw [show (String.mk ('/' :: l)).data ++ '/' :: x.data = '/' :: (l ++ '/' :: x.data) from rfl]
  exact AbsPath.inv_clean_rooted _

/-- A concrete demonstration host: the home directory resolves to
/home/u, the working directory to /cwd, symlink resolution fails. -/
def hostDemo : Host :=
  ⟨Except.ok "/home/u", Except.ok "/cwd", fun _ => Except.error (GoError.host "fs failure")⟩

/-- A host whose get-working-directory query fails. -/
def hostGetwdFail : Host :=
  ⟨Except.ok "/home/u", Except.error (GoError.host "getwd failed"),
   fun _ => Except.error (GoError.host "fs failure")⟩

/-- A host with no resolvable current user. -/
def hostNoUser : Host :=
  ⟨Except.error (GoError.host "no current user"), Except.ok "/cwd",
   fun _ => Except.error (GoError.host "fs failure")⟩

/-- Build the invariant for a literal absolute path from two
computations. -/
theorem inv_of_lit (l : List Char) {s : String} (he : s = String.mk ('/' :: l))
    (hc : String.mk (Filepath.segsToChars (Filepath.normSegs [] (Filepath.segsOf l)))
      = String.mk ('/' :: l)) :
    (AbsPath.mk s).Inv := by
  subst he
  refine ⟨Filepath.isAbs_mk_cons_slash l, ?_, ?_⟩
  · intro hcon
    have := congrArg String.data hcon
    simp at this
  · rw [show (AbsPath.mk (String.mk ('/' :: l))).underlying = String.mk ('/' :: l) from rfl,
      Filepath.clean_mk_rooted, hc]

theorem inv_sample_a : (AbsPath.mk "/a").Inv :=
  inv_of_lit ['a'] (by decide) (by decide)

theorem inv_sample_foo : (AbsPath.mk "/foo").Inv :=
  inv_of_lit ['f', 'o', 'o'] (by decide) (by decide)

theorem inv_sample_foobar : (AbsPath.mk "/foo/bar").Inv :=
  inv_of_lit ['f', 'o', 'o', '/', 'b', 'a', 'r'] (by decide) (by decide)

/-- C3: New (Validate) fails with NotAbsolutePath carrying the
original input exactly when the input fails the host absoluteness
test (the empty string included), and otherwise succeeds with the
host-cleaned form of the input wrapped. -/
theorem claim3_new_validates (s : String) :
    (Filepath.isAbs s = false → New s = (⟨""⟩, some (GoError.notAbsolutePath s))) ∧
    (Filepath.isAbs s = true → New s = (⟨Filepath.Clean s⟩, none)) ∧
    Filepath.isAbs "" = false := by
  refine ⟨?_, ?_, by decide⟩
  · intro h
    rw [New, if_pos (by simp [h])]
  · intro h
    rw [New, if_neg (by simp [h])]

theorem claim3_witness :
    Filepath.isAbs "rel" = false ∧
    New "rel" = (⟨""⟩, some (GoError.notAbsolutePath "rel")) ∧
    Filepath.isAbs "/a" = true ∧
    New "/a" = (⟨Filepath.Clean "/a"⟩, none) :=
  ⟨by decide, (claim3_new_validates "rel").1 (by decide), by decide,
    (claim3_new_validates "/a").2.1 (by decide)⟩

/-- C7: the round trip: for an AbsPath satisfying the invariant, New
of its String succeeds and returns an equal value. -/
theorem claim7_roundtrip (a : AbsPath) (h : a.Inv) : New (AbsPath.String a) = (a, none) := by
  have h1 : Filepath.isAbs (AbsPath.String a) = true := h.1
  have h2 : Filepath.Clean (AbsPath.String a) = AbsPath.String a := h.2.2
  rw [New, if_neg (by simp [h1]), h2]
  exact rfl

theorem claim7_witness :
    (AbsPath.mk "/a").Inv ∧ New (AbsPath.String (AbsPath.mk "/a")) = (AbsPath.mk "/a", none) :=
  ⟨inv_sample_a, claim7_roundtrip (AbsPath.mk "/a") inv_sample_a⟩

/-- C2: when the host get-working-directory query fails, Getwd
returns a nil error together with the empty wrapped path: the failure
is silently swallowed (abspath.go line 99 returns nil where the
claim, the doc comment and the propagation policy require the error). -/
theorem claim2_getwd_swallows (h : Host) (e : GoError) (he : h.osGetwd = Except.error e) :
    Getwd h = (⟨""⟩, none) := by
  rw [Getwd, he]

theorem claim2_witness : Getwd hostGetwdFail = (⟨""⟩, none) :=
  claim2_getwd_swallows hostGetwdFail (GoError.host "getwd failed") rfl

/-- C6 (amended): given the empty string, ExpandFrom and
ExpandFromSlash fail with the generic formatted error
"Empty path cannot be expanded", not with the NotAbsolutePath kind. -/
theorem claim6_empty_error (h : Host) :
    ExpandFrom h "" = (⟨""⟩, some (GoError.errorf "Empty path cannot be expanded")) ∧
    ExpandFromSlash h "" = (⟨""⟩, some (GoError.errorf "Empty path cannot be expanded")) := by
  constructor
  · rw [ExpandFrom, if_neg (by decide), if_pos rfl]
  · rw [ExpandFromSlash, Filepath.FromSlash, ExpandFrom, if_neg (by decide), if_pos rfl]

/-- C6 (counterexample): at the empty input the error returned by
ExpandFrom and ExpandFromSlash is the generic errorf value, not a
NotAbsolutePath error. -/
theorem claim6_counterexample :
    (ExpandFrom hostDemo "").2 = some (GoError.errorf "Empty path cannot be expanded") ∧
    (ExpandFromSlash hostDemo "").2 = some (GoError.errorf "Empty path cannot be expanded") ∧
    (ExpandFrom hostDemo "").2 ≠ some (GoError.notAbsolutePath "") := by
  decide

/-- C10: every fallible constructor and EvalSymlinks returns the
AbsPath wrapping the empty string as value whenever its error
component is set. -/
theorem claim10_error_value (h : Host) (s : String) (a : AbsPath) :
    ((New s).2.isSome = true → (New s).1 = ⟨""⟩) ∧
    ((ExpandFrom h s).2.isSome = true → (ExpandFrom h s).1 = ⟨""⟩) ∧
    ((FromSlash s).2.isSome = true → (FromSlash s).1 = ⟨""⟩) ∧
    ((ExpandFromSlash h s).2.isSome = true → (ExpandFromSlash h s).1 = ⟨""⟩) ∧
    ((AbsPath.EvalSymlinks h a).2.isSome = true → (AbsPath.EvalSymlinks h a).1 = ⟨""⟩) := by
  have hnew : ∀ t : String, (New t).2.isSome = true → (New t).1 = ⟨""⟩ := by
    intro t h'
    by_cases hab : Filepath.isAbs t = true
    · rw [New, if_neg (by simp [hab])] at h'
      simp at h'
    · have hab2 : Filepath.isAbs t = false := by simpa using hab
      rw [New, if_pos (by simp [hab2])]
  have hexp : ∀ t : String, (ExpandFrom h t).2.isSome = true → (ExpandFrom h t).1 = ⟨""⟩ := by
    intro t h'
    by_cases hab : Filepath.isAbs t = true
    · rw [ExpandFrom, if_pos hab] at h'
      simp at h'
    · by_cases hemp : t = ""
      · rw [ExpandFrom, if_neg hab, if_pos hemp]
      · by_cases htl : t.data.head? = some '~'
        · rw [ExpandFrom, if_neg hab, if_neg hemp, if_pos htl] at h' ⊢
          cases hh : h.userHomeDir with
          | error e => rfl
          | ok home =>
            rw [hh] at h'
            simp at h'
        · rw [ExpandFrom, if_neg hab, if_neg hemp, if_neg htl] at h' ⊢
          cases habs : Filepath.Abs h.osGetwd t with
          | mk p oe =>
            cases oe with
            | none =>
              rw [habs] at h'
              simp at h'
            | some e => rfl
  have hev : (AbsPath.EvalSymlinks h a).2.isSome = true → (AbsPath.EvalSymlinks h a).1 = ⟨""⟩ := by
    intro h'
    cases hh : h.evalSymlinks a.underlying with
    | error e => rw [AbsPath.EvalSymlinks, hh]
    | ok s2 =>
      simp only [AbsPath.EvalSymlinks, hh] at h' ⊢
      cases habs : Filepath.Abs h.osGetwd s2 with
      | mk p oe =>
        cases oe with
        | none =>
          rw [habs] at h'
          simp at h'
        | some e => rfl
  exact ⟨hnew s, hexp s, hnew _, hexp _, hev⟩

theorem claim10_witness :
    (New "rel").2.isSome = true ∧ (New "rel").1 = ⟨""⟩ ∧
    (AbsPath.EvalSymlinks hostDemo (AbsPath.mk "/x")).2.isSome = true ∧
    (AbsPath.EvalSymlinks hostDemo (AbsPath.mk "/x")).1 = ⟨""⟩ :=
  ⟨by decide, (claim10_error_value hostDemo "rel" (AbsPath.mk "/x")).1 (by decide), by decide,
   (claim10_error_value hostDemo "rel" (AbsPath.mk "/x")).2.2.2.2 (by decide)⟩

/-- C4 (modelled from the spec, HomeDir being absent from the
sources): HomeDir fails with the host error when the home directory
cannot be resolved, and otherwise validates the resolved value: it
fails with NotAbsolutePath when that value is not absolute and
succeeds with the cleaned wrapped value when it is. -/
theorem claim4_homedir (h : Host) :
    (∀ e, h.userHomeDir = Except.error e → HomeDir h = (⟨""⟩, some e)) ∧
    (∀ home, h.userHomeDir = Except.ok home →
      (Filepath.isAbs home = false →
        HomeDir h = (⟨""⟩, some (GoError.notAbsolutePath home))) ∧
      (Filepath.isAbs home = true → HomeDir h = (⟨Filepath.Clean home⟩, none))) := by
  constructor
  · intro e he
    rw [HomeDir, he]
  · intro home hh
    constructor
    · intro hab
      simp only [HomeDir, hh]
      rw [New, if_pos (by simp [hab])]
    · intro hab
      simp only [HomeDir, hh]
      rw [New, if_neg (by simp [hab])]

theorem claim4_witness :
    HomeDir hostNoUser = (⟨""⟩, some (GoError.host "no current user")) ∧
    hostDemo.userHomeDir = Except.ok "/home/u" ∧
    Filepath.isAbs "/home/u" = true ∧
    HomeDir hostDemo = (⟨Filepath.Clean "/home/u"⟩, none) :=
  ⟨(claim4_homedir hostNoUser).1 (GoError.host "no current user") rfl, rfl, by decide,
   ((claim4_homedir hostDemo).2 "/home/u" rfl).2 (by decide)⟩

theorem isAbs_false_of_tilde {s : String} (h1 : s.data.head? = some '~') :
    Filepath.isAbs s = false := by
  cases hd : s.data with
  | nil => rw [hd] at h1; simp at h1
  | cons c l =>
    rw [hd] at h1
    have hc : c = '~' := by simpa using h1
    subst hc
    rw [Filepath.isAbs, hd]
    exact rfl

theorem expandFrom_tilde (h : Host) (s : String) (h0 : s ≠ "")
    (h1 : s.data.head? = some '~') (hab : Filepath.isAbs s = false) :
    ExpandFrom h s
      = match h.userHomeDir with
        | Except.error e => (⟨""⟩, some e)
        | Except.ok home => (⟨Filepath.Join [home, String.mk s.data.tail]⟩, none) := by
  rw [ExpandFrom, if_neg (by simp [hab]), if_neg h0, if_pos h1]

theorem Filepath.isAbs_join_first {u : String} (x : String)
    (hu : Filepath.isAbs u = true) :
    Filepath.isAbs (Filepath.Join [u, x]) = true := by
  obtain ⟨l, hl⟩ := Filepath.isAbs_shape' hu
  subst hl
  have hu' : String.mk ('/' :: l) ≠ "" := by
    intro hc
    have := congrArg String.data hc
    simp at this
  rw [Filepath.join_chars x hu']
  rw [show (String.mk ('/' :: l)).data ++ '/' :: x.data = '/' :: (l ++ '/' :: x.data) from rfl]
  rw [Filepath.clean_mk_rooted]
  exact Filepath.isAbs_mk_cons_slash _

/-- C5: for non-empty input beginning with a tilde, ExpandFrom fails
exactly when the home-directory query fails (propagating that error),
and otherwise returns the join of the home directory with the
remainder of the input after the leading tilde; when the home
directory is absolute, so is the result. -/
theorem claim5_tilde (h : Host) (s : String) (h0 : s ≠ "")
    (h1 : s.data.head? = some '~') :
    (∀ e, h.userHomeDir = Except.error e → ExpandFrom h s = (⟨""⟩, some e)) ∧
    (∀ home, h.userHomeDir = Except.ok home →
      ExpandFrom h s = (⟨Filepath.Join [home, String.mk s.data.tail]⟩, none) ∧
      (Filepath.isAbs home = true →
        Filepath.isAbs (Filepath.Join [home, String.mk s.data.tail]) = true)) := by
  have hab := isAbs_false_of_tilde h1
  constructor
  · intro e he
    rw [expandFrom_tilde h s h0 h1 hab, he]
  · intro home hh
    constructor
    · rw [expandFrom_tilde h s h0 h1 hab, hh]
    · intro habs
      exact Filepath.isAbs_join_first _ habs

theorem claim5_witness :
    ("~/x" : String) ≠ "" ∧ ("~/x" : String).data.head? = some '~' ∧
    ExpandFrom hostDemo "~/x"
      = (⟨Filepath.Join ["/home/u", String.mk ("~/x" : String).data.tail]⟩, none) :=
  ⟨by decide, by decide,
   ((claim5_tilde hostDemo "~/x" (by decide) (by decide)).2 "/home/u" rfl).1⟩

/-- The natural host assumption the library leaves unchecked: when
the host home-directory or working-directory query succeeds, the
string it hands back is itself a host-absolute path. -/
def HostWF (h : Host) : Prop :=
  (∀ home, h.userHomeDir = Except.ok home → Filepath.isAbs home = true) ∧
  (∀ cwd, h.osGetwd = Except.ok cwd → Filepath.isAbs cwd = true)

/-- A host whose symlink resolution succeeds by returning the path
unchanged. -/
def hostSymOk : Host :=
  ⟨Except.ok "/home/u", Except.ok "/cwd", fun p => Except.ok p⟩

theorem hostDemo_wf : HostWF hostDemo := by
  constructor
  · intro home hh
    simp only [hostDemo] at hh
    injection hh with h3
    subst h3
    decide
  · intro cwd hh
    simp only [hostDemo] at hh
    injection hh with h3
    subst h3
    decide

theorem hostSymOk_wf : HostWF hostSymOk := by
  constructor
  · intro home hh
    simp only [hostSymOk] at hh
    injection hh with h3
    subst h3
    decide
  · intro cwd hh
    simp only [hostSymOk] at hh
    injection hh with h3
    subst h3
    decide

theorem new_ok_inv {s : String} (hs : Filepath.isAbs s = true) : ((New s).1).Inv := by
  obtain ⟨l, hl⟩ := Filepath.isAbs_shape' hs
  subst hl
  rw [New, if_neg (by simp [hs])]
  exact AbsPath.inv_clean_rooted l

theorem expandFrom_ok_inv (h : Host) (s : String) (hwf : HostWF h)
    (hok : (ExpandFrom h s).2 = none) : ((ExpandFrom h s).1).Inv := by
  by_cases hab : Filepath.isAbs s = true
  · rw [ExpandFrom, if_pos hab]
    show (AbsPath.mk (Filepath.Clean s)).Inv
    obtain ⟨l, hl⟩ := Filepath.isAbs_shape' hab
    rw [hl]
    exact AbsPath.inv_clean_rooted l
  · by_cases hemp : s = ""
    · rw [ExpandFrom, if_neg hab, if_pos hemp] at hok
      simp at hok
    · by_cases htl : s.data.head? = some '~'
      · rw [ExpandFrom, if_neg hab, if_neg hemp, if_pos htl] at hok ⊢
        cases hh : h.userHomeDir with
        | error e =>
          rw [hh] at hok
          simp at hok
        | ok home =>
          show (AbsPath.mk (Filepath.Join [home, String.mk s.data.tail])).Inv
          exact joinWith_inv _ (hwf.1 home hh)
      · rw [ExpandFrom, if_neg hab, if_neg hemp, if_neg htl] at hok ⊢
        have hab2 : Filepath.isAbs s = false := by simpa using hab
        cases hgw : h.osGetwd with
        | error e =>
          rw [hgw] at hok
          have habs : Filepath.Abs (Except.error e) s = ("", some e) := by
            rw [Filepath.Abs.eq_def, if_neg (by simp [hab2])]
          rw [habs] at hok
          simp at hok
        | ok wd =>
          have habs : Filepath.Abs (Except.ok wd) s = (Filepath.Join [wd, s], none) := by
            rw [Filepath.Abs.eq_def, if_neg (by simp [hab2])]
          rw [habs]
          show (AbsPath.mk (Filepath.Join [wd, s])).Inv
          exact joinWith_inv _ (hwf.2 wd hgw)

theorem evalSymlinks_ok_inv (h : Host) (a : AbsPath) (hwf : HostWF h)
    (hok : (AbsPath.EvalSymlinks h a).2 = none) : ((AbsPath.EvalSymlinks h a).1).Inv := by
  cases hh : h.evalSymlinks a.underlying with
  | error e =>
    rw [AbsPath.EvalSymlinks, hh] at hok
    simp at hok
  | ok s2 =>
    simp only [AbsPath.EvalSymlinks, hh] at hok ⊢
    by_cases hab : Filepath.isAbs s2 = true
    · have habs : Filepath.Abs h.osGetwd s2 = (Filepath.Clean s2, none) := by
        rw [Filepath.Abs.eq_def, if_pos hab]
      rw [habs]
      show (AbsPath.mk (Filepath.Clean s2)).Inv
      obtain ⟨l, hl⟩ := Filepath.isAbs_shape' hab
      rw [hl]
      exact AbsPath.inv_clean_rooted l
    · have hab2 : Filepath.isAbs s2 = false := by simpa using hab
      cases hgw : h.osGetwd with
      | error e =>
        rw [hgw] at hok
        have habs : Filepath.Abs (Except.error e) s2 = ("", some e) := by
          rw [Filepath.Abs.eq_def, if_neg (by simp [hab2])]
        rw [habs] at hok
        simp at hok
      | ok wd =>
        have habs : Filepath.Abs (Except.ok wd) s2 = (Filepath.Join [wd, s2], none) := by
          rw [Filepath.Abs.eq_def, if_neg (by simp [hab2])]
        rw [habs]
        show (AbsPath.mk (Filepath.Join [wd, s2])).Inv
        exact joinWith_inv _ (hwf.2 wd hgw)

theorem getwd_ok_inv (h : Host) (cwd : String) (hgw : h.osGetwd = Except.ok cwd)
    (hok : (Getwd h).2 = none) : ((Getwd h).1).Inv := by
  simp only [Getwd, hgw] at hok ⊢
  by_cases hab : Filepath.isAbs cwd = true
  · exact new_ok_inv hab
  · have hab2 : Filepath.isAbs cwd = false := by simpa using hab
    rw [New, if_pos (by simp [hab2])] at hok
    simp at hok

theorem expandDemo_ok : (ExpandFrom hostDemo "~/x").2 = none := by
  rw [expandFrom_tilde hostDemo "~/x" (by decide) (by decide) (by decide)]
  exact rfl

/-- C1 (amended): the invariant (host-absolute, non-empty, cleaned)
holds for every successful New and FromSlash result, is preserved by
Join (any elements) and by Dir, holds for every successful ExpandFrom,
ExpandFromSlash and EvalSymlinks result whenever the host home- and
working-directory queries hand back absolute strings (the library
never validates them), and holds for Getwd whenever the host query
itself succeeds.  It is NOT maintained by Base, by the directory
component of Split (which keeps a trailing separator), or by Getwd
when the host query fails (see the counterexample). -/
theorem claim1_invariant_amended :
    (∀ s, Filepath.isAbs s = true → ((New s).1).Inv) ∧
    (∀ s, Filepath.isAbs s = true → ((FromSlash s).1).Inv) ∧
    (∀ (a : AbsPath) (elem : List String), a.Inv → (a.Join elem).Inv) ∧
    (∀ a : AbsPath, a.Inv → (AbsPath.Dir a).Inv) ∧
    (∀ (h : Host) (s : String), HostWF h → (ExpandFrom h s).2 = none →
      ((ExpandFrom h s).1).Inv) ∧
    (∀ (h : Host) (s : String), HostWF h → (ExpandFromSlash h s).2 = none →
      ((ExpandFromSlash h s).1).Inv) ∧
    (∀ (h : Host) (a : AbsPath), HostWF h → (AbsPath.EvalSymlinks h a).2 = none →
      ((AbsPath.EvalSymlinks h a).1).Inv) ∧
    (∀ (h : Host) (cwd : String), h.osGetwd = Except.ok cwd → (Getwd h).2 = none →
      ((Getwd h).1).Inv) := by
  refine ⟨fun s hs => new_ok_inv hs, fun s hs => new_ok_inv hs, ?_, ?_,
    fun h s hwf hok => expandFrom_ok_inv h s hwf hok,
    fun h s hwf hok => expandFrom_ok_inv h (Filepath.FromSlash s) hwf hok,
    fun h a hwf hok => evalSymlinks_ok_inv h a hwf hok,
    fun h cwd hgw hok => getwd_ok_inv h cwd hgw hok⟩
  · intro a elem hInv
    cases elem with
    | nil => exact hInv
    | cons e rest =>
      cases rest with
      | nil => exact joinWith_inv e hInv.1
      | cons e2 rest2 => exact joinWith_inv (Filepath.Join (e :: e2 :: rest2)) hInv.1
  · intro a hInv
    obtain ⟨segs, hval, hdata⟩ := AbsPath.inv_structure hInv
    have ha : a.underlying = String.mk (Filepath.segsToChars segs) := by
      conv_lhs => rw [← strMk_data a.underlying, hdata]
    rcases List.eq_nil_or_concat segs with hnil | ⟨as, x, hcat⟩
    · subst hnil
      have e1 : (Filepath.splitLastSep a.underlying.data).1 = ['/'] := by
        rw [hdata]
        exact rfl
      show (AbsPath.mk (Filepath.Dir a.underlying)).Inv
      rw [Filepath.Dir, e1]
      exact AbsPath.inv_clean_rooted []
    · rw [List.concat_eq_append] at hcat
      subst hcat
      have hx : Filepath.ValidSeg x := hval x (by simp)
      show (AbsPath.mk (Filepath.Dir a.underlying)).Inv
      rw [ha, Filepath.dir_segs (fun s hs => hval s (List.mem_append_left _ hs)) hx]
      exact AbsPath.inv_segsToChars (fun s hs => hval s (List.mem_append_left _ hs))

theorem claim1_witness :
    Filepath.isAbs "/a" = true ∧ ((New "/a").1).Inv ∧ ((FromSlash "/a").1).Inv ∧
    ((AbsPath.mk "/a").Join ["b"]).Inv ∧ ((AbsPath.mk "/a").Dir).Inv ∧
    HostWF hostDemo ∧ (ExpandFrom hostDemo "~/x").2 = none ∧
    ((ExpandFrom hostDemo "~/x").1).Inv ∧ ((ExpandFromSlash hostDemo "~/x").1).Inv ∧
    HostWF hostSymOk ∧ ((AbsPath.EvalSymlinks hostSymOk (AbsPath.mk "/x")).1).Inv ∧
    ((Getwd hostDemo).1).Inv :=
  ⟨by decide, claim1_invariant_amended.1 "/a" (by decide),
   claim1_invariant_amended.2.1 "/a" (by decide),
   claim1_invariant_amended.2.2.1 (AbsPath.mk "/a") ["b"] inv_sample_a,
   claim1_invariant_amended.2.2.2.1 (AbsPath.mk "/a") inv_sample_a,
   hostDemo_wf, expandDemo_ok,
   claim1_invariant_amended.2.2.2.2.1 hostDemo "~/x" hostDemo_wf expandDemo_ok,
   claim1_invariant_amended.2.2.2.2.2.1 hostDemo "~/x" hostDemo_wf expandDemo_ok,
   hostSymOk_wf,
   claim1_invariant_amended.2.2.2.2.2.2.1 hostSymOk (AbsPath.mk "/x") hostSymOk_wf (by decide),
   claim1_invariant_amended.2.2.2.2.2.2.2 hostDemo "/cwd" rfl (by decide)⟩

/-- C1 (counterexample): Base of the reachable value /foo/bar is the
relative string bar (the stored string fails the absoluteness test);
the directory component of Split keeps its trailing separator and is
not in cleaned form; and Getwd produces the empty wrapped path (with
a nil error) when the host query fails. -/
theorem claim1_counterexample :
    (New "/foo/bar").1 = AbsPath.mk "/foo/bar" ∧
    AbsPath.Base (AbsPath.mk "/foo/bar") = AbsPath.mk "bar" ∧
    Filepath.isAbs "bar" = false ∧
    (AbsPath.Split (AbsPath.mk "/foo/bar")).1 = AbsPath.mk "/foo/" ∧
    Filepath.Clean "/foo/" ≠ "/foo/" ∧
    Getwd hostGetwdFail = (AbsPath.mk "", none) := by
  have hc : Filepath.Clean "/foo/bar" = "/foo/bar" := by
    have e : ("/foo/bar" : String) = String.mk ('/' :: ['f', 'o', 'o', '/', 'b', 'a', 'r']) := by
      decide
    rw [e, Filepath.clean_mk_rooted]
    decide
  refine ⟨?_, by decide, by decide, by decide, ?_, by decide⟩
  · rw [New, if_neg (by decide), hc]
  · have e2 : ("/foo/" : String) = String.mk ('/' :: ['f', 'o', 'o', '/']) := by decide
    rw [e2, Filepath.clean_mk_rooted]
    decide

theorem str_eq_of_data {x : String} {l : List Char} (h : x.data = l) : x = String.mk l :=
  (strMk_data x).symm.trans (congrArg String.mk h)

/-- Evaluate Clean at a literal rooted path through the master
description. -/
theorem clean_lit (s t : String) (l : List Char) (hs : s = String.mk ('/' :: l))
    (hc : String.mk (Filepath.segsToChars (Filepath.normSegs [] (Filepath.segsOf l))) = t) :
    Filepath.Clean s = t := by
  rw [hs, Filepath.clean_mk_rooted, hc]

/-- Evaluate Dir at a literal rooted path. -/
theorem dir_lit (s t : String) (l : List Char)
    (hs : (Filepath.splitLastSep s.data).1 = '/' :: l)
    (hc : String.mk (Filepath.segsToChars (Filepath.normSegs [] (Filepath.segsOf l))) = t) :
    Filepath.Dir s = t := by
  rw [Filepath.Dir, hs, Filepath.clean_mk_rooted, hc]

/-- Evaluate a two-element Join at literals, up to Clean. -/
theorem join_lit (u x j : String) (hu : u ≠ "") (happ : u ++ "/" ++ x = j) :
    Filepath.Join [u, x] = Filepath.Clean j := by
  rw [Filepath.Join_two x hu, happ]

theorem Filepath.split_join_segs {segs : List (List Char)}
    (hval : ∀ s ∈ segs, Filepath.ValidSeg s) :
    Filepath.Join [String.mk (Filepath.splitLastSep (Filepath.segsToChars segs)).1,
                   String.mk (Filepath.splitLastSep (Filepath.segsToChars segs)).2]
      = String.mk (Filepath.segsToChars segs) := by
  rcases List.eq_nil_or_concat segs with hnil | ⟨as, x, hcat⟩
  · subst hnil
    rw [show (Filepath.splitLastSep (Filepath.segsToChars [])).1 = ['/'] from rfl,
      show (Filepath.splitLastSep (Filepath.segsToChars [])).2 = [] from rfl]
    rw [Filepath.join_chars (String.mk []) (by decide)]
    rw [show (String.mk ['/']).data ++ '/' :: (String.mk ([] : List Char)).data
      = '/' :: ['/'] from rfl]
    rw [Filepath.clean_mk_rooted]
    decide
  · rw [List.concat_eq_append] at hcat
    subst hcat
    have hx : Filepath.ValidSeg x := hval x (by simp)
    have hvas : ∀ s ∈ as, Filepath.ValidSeg s := fun s hs => hval s (List.mem_append_left _ hs)
    cases as with
    | nil =>
      have e1 : Filepath.segsToChars ([] ++ [x]) = [] ++ '/' :: x := by
        simp [Filepath.segsToChars, Filepath.interSegs]
      rw [e1, Filepath.splitLastSep_append hx.2.2.2]
      rw [show (([] : List Char) ++ ['/'], x).1 = ['/'] from by simp,
        show (([] : List Char) ++ ['/'], x).2 = x from rfl]
      rw [Filepath.join_chars (String.mk x) (by decide)]
      rw [show (String.mk ['/']).data ++ '/' :: (String.mk x).data = '/' :: ('/' :: x) from rfl]
      rw [Filepath.clean_mk_rooted]
      rw [Filepath.segsOf_cons_sep x (by decide), Filepath.segsOf_single hx.1 hx.2.2.2]
      rw [Filepath.normSegs_no_dots (by simp [hx.2.1, hx.2.2.1]) []]
      simp [Filepath.segsToChars, Filepath.interSegs]
    | cons a as' =>
      have e1 : Filepath.segsToChars ((a :: as') ++ [x])
          = Filepath.segsToChars (a :: as') ++ '/' :: x := by
        simp only [Filepath.segsToChars]
        rw [Filepath.interSegs_concat x (by simp)]
        simp
      rw [e1, Filepath.splitLastSep_append hx.2.2.2]
      have hne : String.mk ((Filepath.segsToChars (a :: as') ++ ['/'], x).1) ≠ "" := by
        intro hcon
        have := congrArg String.data hcon
        simp [Filepath.segsToChars] at this
      rw [Filepath.join_chars (String.mk ((Filepath.segsToChars (a :: as') ++ ['/'], x).2)) hne]
      have e2 : (String.mk ((Filepath.segsToChars (a :: as') ++ ['/'], x).1)).data
            ++ '/' :: (String.mk ((Filepath.segsToChars (a :: as') ++ ['/'], x).2)).data
          = '/' :: (Filepath.interSegs (a :: as') ++ '/' :: ('/' :: x)) := by
        simp [Filepath.segsToChars]
      rw [e2, Filepath.clean_mk_rooted]
      rw [Filepath.segsOf_append_sep,
        Filepath.segsOf_interSegs (fun s hs => ⟨(hvas s hs).1, (hvas s hs).2.2.2⟩),
        Filepath.segsOf_cons_sep x (by decide), Filepath.segsOf_single hx.1 hx.2.2.2]
      rw [Filepath.normSegs_no_dots ?hnd []]
      · rw [List.nil_append, e1]
      case hnd =>
        intro s hs
        rcases List.mem_append.mp hs with h1 | h2
        · exact ⟨(hvas s h1).2.1, (hvas s h1).2.2.1⟩
        · have hx2 : s = x := by simpa using h2
          subst hx2
          exact ⟨hx.2.1, hx.2.2.1⟩

/-- C9 (amended): Split returns the parent directory including its
trailing separator (it is not normalized; see the counterexample) and
the final element, and for any AbsPath satisfying the invariant,
joining the two components gives back the original value. -/
theorem claim9_split_join (a : AbsPath) (h : a.Inv) :
    ((AbsPath.Split a).1).Join [(AbsPath.Split a).2] = a := by
  obtain ⟨segs, hval, hdata⟩ := AbsPath.inv_structure h
  have ha : a = AbsPath.mk (String.mk (Filepath.segsToChars segs)) := by
    obtain ⟨u⟩ := a
    exact congrArg AbsPath.mk (str_eq_of_data hdata)
  rw [ha]
  show AbsPath.mk (Filepath.Join
      [String.mk (Filepath.splitLastSep (Filepath.segsToChars segs)).1,
       String.mk (Filepath.splitLastSep (Filepath.segsToChars segs)).2])
    = AbsPath.mk (String.mk (Filepath.segsToChars segs))
  exact congrArg AbsPath.mk (Filepath.split_join_segs hval)

theorem claim9_witness :
    (AbsPath.mk "/foo/bar").Inv ∧
    ((AbsPath.Split (AbsPath.mk "/foo/bar")).1).Join
        [(AbsPath.Split (AbsPath.mk "/foo/bar")).2]
      = AbsPath.mk "/foo/bar" :=
  ⟨inv_sample_foobar, claim9_split_join (AbsPath.mk "/foo/bar") inv_sample_foobar⟩

/-- C9 (counterexample): at the reachable value /foo/bar, the
directory component of Split is /foo/ with its trailing separator:
it is not a fixed point of the host cleaning step, so it is not
normalized as the claim states. -/
theorem claim9_counterexample :
    (New "/foo/bar").1 = AbsPath.mk "/foo/bar" ∧
    (AbsPath.Split (AbsPath.mk "/foo/bar")).1 = AbsPath.mk "/foo/" ∧
    Filepath.Clean "/foo/" = "/foo" ∧
    Filepath.Clean "/foo/" ≠ "/foo/" := by
  have hc : Filepath.Clean "/foo/" = "/foo" :=
    clean_lit "/foo/" "/foo" ['f', 'o', 'o', '/'] (by decide) (by decide)
  refine ⟨?_, by decide, hc, by rw [hc]; decide⟩
  rw [New, if_neg (by decide),
    clean_lit "/foo/bar" "/foo/bar" ['f', 'o', 'o', '/', 'b', 'a', 'r'] (by decide) (by decide)]

/-- C8 (amended): for an AbsPath satisfying the invariant, other than
the root, and a single regular element x (non-empty, not "." or "..",
free of separators), Join then Dir gives back the original path.  The
counterexample shows the claim fails without the restrictions on x
and without the invariant on the receiver. -/
theorem claim8_join_dir (a : AbsPath) (x : String) (hinv : a.Inv)
    (hroot : a ≠ AbsPath.mk "/") (hx0 : x ≠ "") (hx1 : x ≠ ".") (hx2 : x ≠ "..")
    (hsep : ∀ c ∈ x.data, Filepath.isPathSeparator c = false) :
    (a.Join [x]).Dir = a := by
  obtain ⟨u⟩ := a
  obtain ⟨segs, hval, hdata⟩ := AbsPath.inv_structure hinv
  have ha : u = String.mk (Filepath.segsToChars segs) := str_eq_of_data hdata
  have hxv : Filepath.ValidSeg x.data := by
    refine ⟨?_, ?_, ?_, hsep⟩
    · intro hcon
      exact hx0 ((str_eq_of_data hcon).trans (by decide))
    · intro hcon
      exact hx1 ((str_eq_of_data hcon).trans (by decide))
    · intro hcon
      exact hx2 ((str_eq_of_data hcon).trans (by decide))
  show AbsPath.mk (Filepath.Dir (Filepath.Join [u, x])) = AbsPath.mk u
  rw [ha, show x = String.mk x.data from (strMk_data x).symm,
    Filepath.join_segs hval hxv, Filepath.dir_segs hval hxv]

theorem claim8_witness :
    (AbsPath.mk "/foo").Inv ∧ AbsPath.mk "/foo" ≠ AbsPath.mk "/" ∧
    ((AbsPath.mk "/foo").Join ["bar"]).Dir = AbsPath.mk "/foo" :=
  ⟨inv_sample_foo, by decide,
   claim8_join_dir (AbsPath.mk "/foo") "bar" inv_sample_foo (by decide) (by decide)
     (by decide) (by decide) (by decide)⟩

/-- C8 (counterexample): for a = /foo (a valid non-root AbsPath),
the separator-free strings ".", ".." and "" all break the claimed
identity: Join then Dir lands at the root instead of back at a; and
for the unclean receiver /foo/ (reachable through Split) even a
regular element x breaks it. -/
theorem claim8_counterexample :
    (∀ c ∈ ("." : String).data, Filepath.isPathSeparator c = false) ∧
    ((AbsPath.mk "/foo").Join ["."]).Dir = AbsPath.mk "/" ∧
    AbsPath.mk "/" ≠ AbsPath.mk "/foo" ∧
    ((AbsPath.mk "/foo").Join [".."]).Dir = AbsPath.mk "/" ∧
    ((AbsPath.mk "/foo").Join [""]).Dir = AbsPath.mk "/" ∧
    ((AbsPath.mk "/foo/").Join ["x"]).Dir = AbsPath.mk "/foo" ∧
    AbsPath.mk "/foo" ≠ AbsPath.mk "/foo/" := by
  have hA : Filepath.Dir (Filepath.Join ["/foo", "."]) = "/" := by
    rw [join_lit "/foo" "." "/foo/." (by decide) (by decide),
      clean_lit "/foo/." "/foo" ['f', 'o', 'o', '/', '.'] (by decide) (by decide),
      dir_lit "/foo" "/" [] (by decide) (by decide)]
  have hB : Filepath.Dir (Filepath.Join ["/foo", ".."]) = "/" := by
    rw [join_lit "/foo" ".." "/foo/.." (by decide) (by decide),
      clean_lit "/foo/.." "/" ['f', 'o', 'o', '/', '.', '.'] (by decide) (by decide),
      dir_lit "/" "/" [] (by decide) (by decide)]
  have hC : Filepath.Dir (Filepath.Join ["/foo", ""]) = "/" := by
    rw [join_lit "/foo" "" "/foo/" (by decide) (by decide),
      clean_lit "/foo/" "/foo" ['f', 'o', 'o', '/'] (by decide) (by decide),
      dir_lit "/foo" "/" [] (by decide) (by decide)]
  have hD : Filepath.Dir (Filepath.Join ["/foo/", "x"]) = "/foo" := by
    rw [join_lit "/foo/" "x" "/foo//x" (by decide) (by decide),
      clean_lit "/foo//x" "/foo/x" ['f', 'o', 'o', '/', '/', 'x'] (by decide) (by decide),
      dir_lit "/foo/x" "/foo" ['f', 'o', 'o', '/'] (by decide) (by decide)]
  exact ⟨by decide, congrArg AbsPath.mk hA, by decide, congrArg AbsPath.mk hB,
    congrArg AbsPath.mk hC, congrArg AbsPath.mk hD, by decide⟩
